import Mathlib

/-!
# Verification of the invisible-watermark codec

Shallow embedding of `src/utils.ts` (`createSeededRandom`, `stringToBinary`,
`binaryToString`) and `src/watermark.ts` (`applyInvisibleWatermark`,
`extractWatermark`).

Modelling conventions:
* A JS string is a list of UTF-16 code units (`List ℕ`); `charCodeAt i` is
  list indexing and `String.fromCharCode v` produces the code unit
  `v % 65536` (ToUint16).
* The pixel buffer `ImageData.data` is a `List ℕ` of byte values in RGBA
  order.  Writing through `List.set` silently ignores out-of-range indices
  and reading out of range yields `undefined`, for which `(undefined & 1)
  === 1` is `false` — both exactly the behaviour of a JS
  `Uint8ClampedArray`.
* `x |= 1` and `x &= ~1` on a byte set the least-significant bit, i.e. they
  replace `x` by `2 * (x / 2) + bit`.
* The values produced by `createSeededRandom` are IEEE doubles from
  `Math.sin`; their exact bit patterns are not representable here, so the
  stream of pixel indices `Math.floor(random() * totalPixels)` consumed by
  the embedding and extraction loops is abstracted as a function
  `g : ℕ → ℕ` (the value drawn by the n-th call of `random()`), with the
  hypothesis `∀ n, g n < totalPixels` where the claim needs it — which the
  real generator satisfies because its outputs lie in `[0, 1)`
  (`sinIndexStream_lt` below).  The generator itself is modelled over `ℝ`
  with `Real.sin` for the claims about its recurrence.
* The unbounded `do … while` redraw loop is modelled with explicit fuel;
  `none` means the loop did not finish within the given number of redraws
  (the JS code would still be spinning).
-/

/-! ## Bit codec (`src/utils.ts`) -/

/-- Binary digits of `n`, most significant first, by repeated division;
`fuel`-driven structural recursion (any `fuel ≥ n` is enough). -/
def binDigitsAux : ℕ → ℕ → List Bool
  | 0, _ => []
  | _, 0 => []
  | fuel + 1, n => binDigitsAux fuel (n / 2) ++ [n % 2 == 1]

/-- JS `n.toString(2)`: the base-2 digits of `n`, most significant first;
`(0).toString(2)` is `"0"`. -/
def jsBinaryDigits (n : ℕ) : List Bool :=
  if n = 0 then [false] else binDigitsAux n n

/-- JS `.padStart(8, '0')`: left-pad with `'0'` up to length 8. -/
def padStart8 (l : List Bool) : List Bool :=
  List.replicate (8 - l.length) false ++ l

/-- Function `stringToBinary` from `src/utils.ts`: for every character of the input,
append the 8-bit-padded binary representation of its character code. -/
def stringToBinary (str : List ℕ) : List Bool :=
  str.flatMap (fun c => padStart8 (jsBinaryDigits c))

/-- JS `parseInt(byte, 2)` on a string of `'0'`/`'1'` characters, most
significant bit first. -/
def bitsToNat (l : List Bool) : ℕ :=
  l.foldl (fun acc b => 2 * acc + (if b then 1 else 0)) 0

/-- Loop body of `binaryToString`: take the next (up to) 8 bits, decode
them, emit the code unit (`String.fromCharCode` applies ToUint16).  The
loop runs at most `fuel` times; `fuel = binary.length` is enough. -/
def binaryToStringAux : ℕ → List Bool → List ℕ
  | 0, _ => []
  | _, [] => []
  | fuel + 1, binary =>
      bitsToNat (binary.take 8) % 65536 :: binaryToStringAux fuel (binary.drop 8)

/-- Function `binaryToString` from `src/utils.ts`. -/
def binaryToString (binary : List Bool) : List ℕ :=
  binaryToStringAux binary.length binary

/-! ## Seeded pseudo-random generator (`createSeededRandom`) -/

/-- One call of the closure returned by `createSeededRandom`: with the
captured counter at value `c`, compute `x = sin(c) * 10000`, return
`x - floor(x)` and leave the counter at `c + 1` (the `seed++`
post-increment). -/
noncomputable def seededRandomNext (counter : ℝ) : ℝ × ℝ :=
  (Real.sin counter * 10000 - ↑⌊Real.sin counter * 10000⌋, counter + 1)

/-- The captured `seed` variable after `n` calls of the closure. -/
noncomputable def seededCounter (seed : ℝ) : ℕ → ℝ
  | 0 => seed
  | n + 1 => (seededRandomNext (seededCounter seed n)).2

/-- Function `createSeededRandom` from `src/utils.ts`, as the pure sequence of
values: `createSeededRandom seed n` is what the (n+1)-st call of the
returned closure evaluates to. -/
noncomputable def createSeededRandom (seed : ℝ) (n : ℕ) : ℝ :=
  (seededRandomNext (seededCounter seed n)).1

/-- The stream of pixel indices `Math.floor(random() * totalPixels)`
produced by the generator (source lines 96 and 186). -/
noncomputable def sinIndexStream (seed : ℝ) (totalPixels : ℕ) (n : ℕ) : ℕ :=
  (⌊createSeededRandom seed n * (totalPixels : ℝ)⌋).toNat

/-! ## Pixel buffers and LSB access -/

/-- A decoded image: width, height and the RGBA byte array. -/
structure ImageData where
  width : ℕ
  height : ℕ
  data : List ℕ

/-- Write the least-significant bit of the byte at `idx`:
`data[idx] |= 1` when `b`, `data[idx] &= ~1` otherwise.  Out-of-range
writes are ignored (`List.set` is the identity there), as on a JS typed
array. -/
def setLSB (data : List ℕ) (idx : ℕ) (b : Bool) : List ℕ :=
  data.set idx (2 * (data.getD idx 0 / 2) + if b then 1 else 0)

/-- Same, for a possibly negative index: a JS typed array ignores the
write. -/
def setLSBZ (data : List ℕ) (idx : ℤ) (b : Bool) : List ℕ :=
  if 0 ≤ idx then setLSB data idx.toNat b else data

/-- Reading `(data[idx] & 1) === 1`.  An out-of-range read yields `undefined` and
`(undefined & 1) === 1` is `false`, which `getD … 0` reproduces. -/
def lsb (data : List ℕ) (idx : ℕ) : Bool :=
  data.getD idx 0 % 2 == 1

/-- Same, for a possibly negative index (again reading `undefined`). -/
def lsbZ (data : List ℕ) (idx : ℤ) : Bool :=
  if 0 ≤ idx then lsb data idx.toNat else false

/-! ## Watermark embedding (`applyInvisibleWatermark`) -/

/-- Character codes of the literal `"WATERMARK"`. -/
def watermarkText : List ℕ :=
  "WATERMARK".toList.map Char.toNat

/-- The signature `stringToBinary("WATERMARK")` (source line 115). -/
def signatureBits : List Bool :=
  stringToBinary watermarkText

/-- The `do { pixelIndex = Math.floor(random() * totalPixels) } while
(modifiedPixels.has(pixelIndex))` loop: starting at position `pos` of the
index stream `g`, return the first drawn index not yet in
`modifiedPixels`, together with the next stream position.  `none` when
`fuel` redraws were not enough (the JS loop would still be running). -/
def drawFresh (g : ℕ → ℕ) (modifiedPixels : List ℕ) : ℕ → ℕ → Option (ℕ × ℕ)
  | _, 0 => none
  | pos, fuel + 1 =>
      if g pos ∈ modifiedPixels then drawFresh g modifiedPixels (pos + 1) fuel
      else some (g pos, pos + 1)

/-- The sequence of `count` distinct pixel indices drawn by repeating that
loop, threading the consumed set and the stream position (the slot
selection shared by embedding and extraction). -/
def selectIndices (g : ℕ → ℕ) (fuel : ℕ) : ℕ → List ℕ → ℕ → Option (List ℕ)
  | 0, _, _ => some []
  | count + 1, modifiedPixels, pos =>
      match drawFresh g modifiedPixels pos fuel with
      | none => none
      | some (pixelIndex, pos') =>
          match selectIndices g fuel count (pixelIndex :: modifiedPixels) pos' with
          | none => none
          | some rest => some (pixelIndex :: rest)

/-- State threaded through the embedding loop of source lines 92–111. -/
structure EmbedState where
  data : List ℕ
  modifiedPixels : List ℕ
  pos : ℕ

/-- The embedding loop: for each message bit, draw a fresh pixel index and
set the least-significant bit of that pixel's blue channel
(`data[pixelIndex * 4 + 2]`) to the bit. -/
def embedBits (g : ℕ → ℕ) (fuel : ℕ) : List Bool → EmbedState → Option EmbedState
  | [], st => some st
  | b :: bs, st =>
      match drawFresh g st.modifiedPixels st.pos fuel with
      | none => none
      | some (pixelIndex, pos') =>
          embedBits g fuel bs
            ⟨setLSB st.data (pixelIndex * 4 + 2) b, pixelIndex :: st.modifiedPixels, pos'⟩

/-- First `k` iterations of the signature loop (source lines 116–125):
write bit `i` of the signature into the alpha-channel LSB of pixel
`i + totalPixels - 64`, i.e. at data index `(i + totalPixels - 64) * 4 + 3`
(negative when `totalPixels < 64`, and then ignored by the typed array). -/
def writeSignatureAux (totalPixels : ℕ) (k : ℕ) (data : List ℕ) : List ℕ :=
  (List.range k).foldl
    (fun d (i : ℕ) =>
      setLSBZ d (((i : ℤ) + totalPixels - 64) * 4 + 3) (signatureBits.getD i false)) data

/-- The full signature loop, `Math.min(signature.length, 64)` iterations. -/
def writeSignature (totalPixels : ℕ) (data : List ℕ) : List ℕ :=
  writeSignatureAux totalPixels (min signatureBits.length 64) data

/-- Function `applyInvisibleWatermark` from `src/watermark.ts`, for an explicit
message and an abstract index stream `g` (see the module comment): clone
the buffer, embed `stringToBinary message` bit by bit into blue-channel
LSBs at drawn pixel indices, then write the signature into the
alpha-channel LSBs of the last 64 pixels. -/
def applyInvisibleWatermark (g : ℕ → ℕ) (fuel : ℕ) (imageData : ImageData)
    (message : List ℕ) : Option ImageData :=
  match embedBits g fuel (stringToBinary message) ⟨imageData.data, [], 0⟩ with
  | none => none
  | some st =>
      some ⟨imageData.width, imageData.height,
            writeSignature (imageData.width * imageData.height) st.data⟩

/-! ## Watermark extraction (`extractWatermark`) -/

/-- The signature check of source lines 157–166: compare the alpha-channel
LSB of pixel `i + totalPixels - 64` with signature bit `i` for every
`i < min(signature.length, 64)`. -/
def signatureMatches (totalPixels : ℕ) (data : List ℕ) : Bool :=
  (List.range (min signatureBits.length 64)).all
    (fun i => lsbZ data (((i : ℤ) + totalPixels - 64) * 4 + 3) == signatureBits.getD i false)

/-- The extraction loop of source lines 182–197: draw `count` fresh pixel
indices exactly as the embedder does and read the blue-channel LSB at each
of them, in draw order. -/
def extractBits (g : ℕ → ℕ) (fuel : ℕ) (data : List ℕ) : ℕ → List ℕ → ℕ → Option (List Bool)
  | 0, _, _ => some []
  | count + 1, modifiedPixels, pos =>
      match drawFresh g modifiedPixels pos fuel with
      | none => none
      | some (pixelIndex, pos') =>
          match extractBits g fuel data count (pixelIndex :: modifiedPixels) pos' with
          | none => none
          | some rest => some (lsb data (pixelIndex * 4 + 2) :: rest)

/-- Function `extractWatermark` from `src/watermark.ts`, for an explicit expected
message and an abstract index stream.  The outer `Option` is the fuel of
the redraw loops (`none` = the JS code would not have terminated yet); the
inner one is the function's `string | null` result: `some none` is
`null` (signature mismatch), `some (some t)` is the decoded text. -/
def extractWatermark (g : ℕ → ℕ) (fuel : ℕ) (imageData : ImageData)
    (message : List ℕ) : Option (Option (List ℕ)) :=
  let totalPixels := imageData.width * imageData.height
  if signatureMatches totalPixels imageData.data then
    Option.map (fun bits => some (binaryToString bits))
      (extractBits g fuel imageData.data (stringToBinary message).length [] 0)
  else
    some none

/-! ## Option defaulting (source lines 56–70 and 136–150) -/

/-- The `WatermarkOptions` interface: all three fields optional. -/
structure WatermarkOptions where
  strength : Option ℚ
  message : Option (List ℕ)
  randomSeed : Option ℤ

/-- JS `Math.round x = Math.floor (x + 0.5)` (for the arguments that occur
here). -/
def jsRound (x : ℚ) : ℤ :=
  ⌊x + 1 / 2⌋

/-- Character codes of the default message
`JSON.stringify({address: "Token address", nft_id: "Test nft_id"})`. -/
def defaultMessage : List ℕ :=
  "\x7b\"address\":\"Token address\",\"nft_id\":\"Test nft_id\"\x7d".toList.map Char.toNat

/-- Resolved configuration: strength, message, randomSeed. -/
structure ResolvedConfig where
  strength : ℚ
  message : List ℕ
  randomSeed : ℤ

/-- Spreading `{ ...defaults, ...options }` in `applyInvisibleWatermark`: the default
seed is `Math.round(Math.random() * 1000 + 1)`, where `ambient` stands for
the value the `Math.random()` call returned in this particular run. -/
def resolveEmbedConfig (options : WatermarkOptions) (ambient : ℚ) : ResolvedConfig :=
  ⟨options.strength.getD (3 / 10),
   options.message.getD defaultMessage,
   options.randomSeed.getD (jsRound (ambient * 1000 + 1))⟩

/-- Spreading `{ ...defaults, ...options }` in `extractWatermark`: same shape, but
the default seed is `Math.round(Math.random() * 10000 + 1)`. -/
def resolveExtractConfig (options : WatermarkOptions) (ambient : ℚ) : ResolvedConfig :=
  ⟨options.strength.getD (3 / 10),
   options.message.getD defaultMessage,
   options.randomSeed.getD (jsRound (ambient * 10000 + 1))⟩

/-! ## Index sets accessed by the signature loops -/

/-- The data-array indices accessed by the signature write loop (lines
116–125) and the signature check loop (lines 157–166): both touch
`(i + totalPixels - 64) * 4 + 3` for `i < min(signature.length, 64)`. -/
def signatureAccessIndices (totalPixels : ℕ) : List ℤ :=
  (List.range (min signatureBits.length 64)).map
    (fun (i : ℕ) => ((i : ℤ) + totalPixels - 64) * 4 + 3)

/-- Staged form of the embedding loop used in proofs: the writes the loop
performs once the drawn indices `l` are known. -/
def zipWrites (data : List ℕ) (l : List ℕ) (bits : List Bool) : List ℕ :=
  (l.zip bits).foldl (fun acc p => setLSB acc (p.1 * 4 + 2) p.2) data

/-! ## Elementary lemmas about list access -/

theorem getD_set_ne (d : List ℕ) (i j v : ℕ) (h : i ≠ j) :
    (d.set i v).getD j 0 = d.getD j 0 := by
  induction d generalizing i j with
  | nil => simp
  | cons a d ih =>
      cases i with
      | zero =>
          cases j with
          | zero => exact absurd rfl h
          | succ j => simp [List.set]
      | succ i =>
          cases j with
          | zero => simp [List.set]
          | succ j => simpa [List.set] using ih i j (by omega)

theorem getD_set_self (d : List ℕ) (j v : ℕ) (h : j < d.length) :
    (d.set j v).getD j 0 = v := by
  induction d generalizing j with
  | nil => simp at h
  | cons a d ih =>
      cases j with
      | zero => simp [List.set]
      | succ j => simpa [List.set] using ih j (by simpa using h)

theorem set_of_length_le (d : List ℕ) (j v : ℕ) (h : d.length ≤ j) :
    d.set j v = d := by
  induction d generalizing j with
  | nil => simp
  | cons a d ih =>
      cases j with
      | zero => simp at h
      | succ j => simpa [List.set] using ih j (by simpa using h)

theorem length_setLSB (d : List ℕ) (i : ℕ) (b : Bool) :
    (setLSB d i b).length = d.length := by
  simp [setLSB]

theorem getD_setLSB_ne (d : List ℕ) (i j : ℕ) (b : Bool) (h : i ≠ j) :
    (setLSB d i b).getD j 0 = d.getD j 0 :=
  getD_set_ne d i j _ h

theorem getD_setLSB_self (d : List ℕ) (i : ℕ) (b : Bool) (h : i < d.length) :
    (setLSB d i b).getD i 0 = 2 * (d.getD i 0 / 2) + if b then 1 else 0 :=
  getD_set_self d i _ h

theorem lsb_setLSB_self (d : List ℕ) (i : ℕ) (b : Bool) (h : i < d.length) :
    lsb (setLSB d i b) i = b := by
  rw [lsb, getD_setLSB_self d i b h]
  cases b
  · rw [if_neg (by simp)]
    have h2 : (2 * (d.getD i 0 / 2) + 0) % 2 = 0 := by omega
    rw [h2]
    rfl
  · rw [if_pos rfl]
    have h2 : (2 * (d.getD i 0 / 2) + 1) % 2 = 1 := by omega
    rw [h2]
    rfl

theorem getD_setLSB_div (d : List ℕ) (i j : ℕ) (b : Bool) :
    (setLSB d i b).getD j 0 / 2 = d.getD j 0 / 2 := by
  by_cases hij : i = j
  · subst hij
    by_cases hlt : i < d.length
    · rw [getD_setLSB_self d i b hlt]
      cases b
      · rw [if_neg (by simp)]
        omega
      · rw [if_pos rfl]
        omega
    · rw [setLSB, set_of_length_le d i _ (by omega)]
  · rw [getD_setLSB_ne d i j b hij]

theorem length_setLSBZ (d : List ℕ) (z : ℤ) (b : Bool) :
    (setLSBZ d z b).length = d.length := by
  rw [setLSBZ]
  by_cases h : 0 ≤ z
  · simp [h, length_setLSB]
  · simp [h]

theorem getD_setLSBZ_ne (d : List ℕ) (z : ℤ) (j : ℕ) (b : Bool) (h : z ≠ (j : ℤ)) :
    (setLSBZ d z b).getD j 0 = d.getD j 0 := by
  rw [setLSBZ]
  by_cases h0 : 0 ≤ z
  · simp only [h0, if_true]
    exact getD_setLSB_ne d z.toNat j b (by omega)
  · simp [h0]

theorem getD_setLSBZ_div (d : List ℕ) (z : ℤ) (j : ℕ) (b : Bool) :
    (setLSBZ d z b).getD j 0 / 2 = d.getD j 0 / 2 := by
  rw [setLSBZ]
  by_cases h0 : 0 ≤ z
  · simp only [h0, if_true]
    exact getD_setLSB_div d z.toNat j b
  · simp [h0]

/-! ## Lemmas about the bit codec -/

theorem bitsToNat_cons_false (l : List Bool) :
    bitsToNat (false :: l) = bitsToNat l := by
  simp [bitsToNat]

theorem bitsToNat_append_bit (l : List Bool) (b : Bool) :
    bitsToNat (l ++ [b]) = 2 * bitsToNat l + (if b then 1 else 0) := by
  simp [bitsToNat, List.foldl_append]

theorem bitsToNat_replicate_false (k : ℕ) (l : List Bool) :
    bitsToNat (List.replicate k false ++ l) = bitsToNat l := by
  induction k with
  | zero => simp
  | succ k ih => simpa [List.replicate_succ, bitsToNat_cons_false] using ih

theorem bitsToNat_binDigitsAux : ∀ fuel n, n ≤ fuel → bitsToNat (binDigitsAux fuel n) = n := by
  intro fuel
  induction fuel with
  | zero =>
      intro n hn
      interval_cases n
      simp [binDigitsAux, bitsToNat]
  | succ fuel ih =>
      intro n hn
      cases n with
      | zero => simp [binDigitsAux, bitsToNat]
      | succ m =>
          rw [show binDigitsAux (fuel + 1) (m + 1) =
                binDigitsAux fuel ((m + 1) / 2) ++ [(m + 1) % 2 == 1] from rfl,
            bitsToNat_append_bit, ih ((m + 1) / 2) (by omega)]
          rcases Nat.mod_two_eq_zero_or_one (m + 1) with h | h <;> simp [h] <;> omega

theorem binDigitsAux_length_le : ∀ fuel n k, n < 2 ^ k → (binDigitsAux fuel n).length ≤ k := by
  intro fuel
  induction fuel with
  | zero => intro n k _; simp [binDigitsAux]
  | succ fuel ih =>
      intro n k hn
      cases n with
      | zero => simp [binDigitsAux]
      | succ m =>
          cases k with
          | zero => simp at hn
          | succ k =>
              have h2 : (2 : ℕ) ^ (k + 1) = 2 * 2 ^ k := by ring
              have hm : (m + 1) / 2 < 2 ^ k := by omega
              have := ih ((m + 1) / 2) k hm
              simp only [binDigitsAux, List.length_append, List.length_cons,
                List.length_nil]
              omega

theorem bitsToNat_jsBinaryDigits (n : ℕ) : bitsToNat (jsBinaryDigits n) = n := by
  rw [jsBinaryDigits]
  by_cases h : n = 0
  · simp [h, bitsToNat]
  · simp only [h, if_false]
    exact bitsToNat_binDigitsAux n n le_rfl

theorem jsBinaryDigits_length_le (n : ℕ) (h : n ≤ 255) : (jsBinaryDigits n).length ≤ 8 := by
  rw [jsBinaryDigits]
  by_cases h0 : n = 0
  · simp [h0]
  · simp only [h0, if_false]
    exact binDigitsAux_length_le n n 8 (by norm_num; omega)

theorem padStart8_length (l : List Bool) (h : l.length ≤ 8) : (padStart8 l).length = 8 := by
  simp [padStart8]
  omega

theorem bitsToNat_padStart8 (l : List Bool) : bitsToNat (padStart8 l) = bitsToNat l :=
  bitsToNat_replicate_false _ l

theorem stringToBinary_nil : stringToBinary [] = [] := rfl

theorem stringToBinary_cons (c : ℕ) (s : List ℕ) :
    stringToBinary (c :: s) = padStart8 (jsBinaryDigits c) ++ stringToBinary s := by
  simp [stringToBinary]

theorem binaryToStringAux_fuel (f1 : ℕ) :
    ∀ f2 (bits : List Bool), bits.length ≤ f1 → bits.length ≤ f2 →
      binaryToStringAux f1 bits = binaryToStringAux f2 bits := by
  induction f1 with
  | zero =>
      intro f2 bits h1 _
      have : bits = [] := by
        cases bits
        · rfl
        · simp at h1
      subst this
      cases f2 <;> rfl
  | succ f1 ih =>
      intro f2 bits h1 h2
      cases bits with
      | nil => cases f2 <;> rfl
      | cons b bs =>
          cases f2 with
          | zero => simp at h2
          | succ f2 =>
              rw [show binaryToStringAux (f1 + 1) (b :: bs) =
                    bitsToNat ((b :: bs).take 8) % 65536 ::
                      binaryToStringAux f1 ((b :: bs).drop 8) from rfl,
                show binaryToStringAux (f2 + 1) (b :: bs) =
                    bitsToNat ((b :: bs).take 8) % 65536 ::
                      binaryToStringAux f2 ((b :: bs).drop 8) from rfl]
              have hd : ((b :: bs).drop 8).length ≤ f1 := by
                simp only [List.length_drop, List.length_cons] at *
                omega
              have hd2 : ((b :: bs).drop 8).length ≤ f2 := by
                simp only [List.length_drop, List.length_cons] at *
                omega
              rw [ih f2 _ hd hd2]

theorem binaryToString_append8 (A B : List Bool) (hA : A.length = 8) :
    binaryToString (A ++ B) = bitsToNat A % 65536 :: binaryToString B := by
  cases A with
  | nil => simp at hA
  | cons a A' =>
      rw [binaryToString]
      rw [show ((a :: A') ++ B).length = ((A' ++ B).length + 1) by simp]
      rw [show (a :: A') ++ B = a :: (A' ++ B) from rfl]
      rw [show binaryToStringAux ((A' ++ B).length + 1) (a :: (A' ++ B)) =
            bitsToNat ((a :: (A' ++ B)).take 8) % 65536 ::
              binaryToStringAux (A' ++ B).length ((a :: (A' ++ B)).drop 8) from rfl]
      have htake : (a :: (A' ++ B)).take 8 = a :: A' := by
        rw [show a :: (A' ++ B) = (a :: A') ++ B from rfl, ← hA, List.take_left]
      have hdrop : (a :: (A' ++ B)).drop 8 = B := by
        rw [show a :: (A' ++ B) = (a :: A') ++ B from rfl, ← hA, List.drop_left]
      rw [htake, hdrop, binaryToString]
      congr 1
      apply binaryToStringAux_fuel
      · simp
      · exact le_rfl

theorem binaryToString_stringToBinary (s : List ℕ) (h : ∀ c ∈ s, c ≤ 255) :
    binaryToString (stringToBinary s) = s := by
  induction s with
  | nil => rfl
  | cons c s ih =>
      have hc : c ≤ 255 := h c (List.mem_cons_self c s)
      rw [stringToBinary_cons,
        binaryToString_append8 _ _ (padStart8_length _ (jsBinaryDigits_length_le c hc)),
        bitsToNat_padStart8, bitsToNat_jsBinaryDigits,
        Nat.mod_eq_of_lt (by omega),
        ih (fun c' hc' => h c' (List.mem_cons_of_mem c hc'))]

/-- C4: `stringToBinary` emits, for each character in order, the 8-bit
most-significant-bit-first binary representation of its character code
(checked on `"AB"`, decoded by the MSB-first reader `bitsToNat`, and
blockwise: the output for `c :: s` is the 8-bit block of `c` followed by
the output for `s`), and `binaryToString` inverts it for every text whose
character codes are at most 255. -/
theorem stringToBinary_msb_roundtrip :
    (stringToBinary ("AB".toList.map Char.toNat) =
      [false, true, false, false, false, false, false, true,
       false, true, false, false, false, false, true, false]) ∧
    (∀ c s, stringToBinary (c :: s) = stringToBinary [c] ++ stringToBinary s) ∧
    (∀ c : ℕ, c ≤ 255 →
      (stringToBinary [c]).length = 8 ∧ bitsToNat (stringToBinary [c]) = c) ∧
    (∀ s : List ℕ, (∀ c ∈ s, c ≤ 255) → binaryToString (stringToBinary s) = s) := by
  refine ⟨by decide, ?_, ?_, fun s h => binaryToString_stringToBinary s h⟩
  · intro c s
    simp [stringToBinary]
  · intro c hc
    constructor
    · rw [show stringToBinary [c] = padStart8 (jsBinaryDigits c) ++ [] from rfl,
        List.append_nil]
      exact padStart8_length _ (jsBinaryDigits_length_le c hc)
    · rw [show stringToBinary [c] = padStart8 (jsBinaryDigits c) ++ [] from rfl,
        List.append_nil, bitsToNat_padStart8, bitsToNat_jsBinaryDigits]

/-- Witness for C4: the round-trip at the concrete text `"AB"`. -/
theorem stringToBinary_msb_roundtrip_witness :
    binaryToString (stringToBinary [65, 66]) = [65, 66] :=
  stringToBinary_msb_roundtrip.2.2.2 [65, 66] (by decide)

/-! ## Lemmas about the seeded generator -/

theorem seededCounter_eq (seed : ℝ) (n : ℕ) : seededCounter seed n = seed + n := by
  induction n with
  | zero => simp [seededCounter]
  | succ n ih =>
      rw [show seededCounter seed (n + 1) = (seededRandomNext (seededCounter seed n)).2
          from rfl,
        seededRandomNext, ih]
      push_cast
      ring

theorem createSeededRandom_fract (seed : ℝ) (n : ℕ) :
    createSeededRandom seed n = Int.fract (Real.sin (seed + n) * 10000) := by
  rw [createSeededRandom, seededRandomNext, seededCounter_eq, Int.self_sub_floor]

/-- C5: the value returned by the (n+1)-st call of the closure created by
`createSeededRandom seed` is exactly the fractional part of
`sin(seed + n) * 10000` — the counter is used before it is incremented.
In this pure model the sequence is a function of `(seed, n)` alone, so two
generators created with the same seed produce identical output
sequences. -/
theorem createSeededRandom_closed_form (seed : ℝ) (n : ℕ) :
    createSeededRandom seed n = Int.fract (Real.sin (seed + n) * 10000) :=
  createSeededRandom_fract seed n

theorem createSeededRandom_nonneg (seed : ℝ) (n : ℕ) : 0 ≤ createSeededRandom seed n := by
  rw [createSeededRandom_fract]
  exact Int.fract_nonneg _

theorem createSeededRandom_lt_one (seed : ℝ) (n : ℕ) : createSeededRandom seed n < 1 := by
  rw [createSeededRandom_fract]
  exact Int.fract_lt_one _

/-- The index stream actually fed to the redraw loops satisfies the
`∀ n, g n < totalPixels` hypothesis used below, because the generator's
values lie in `[0, 1)`. -/
theorem sinIndexStream_lt (seed : ℝ) (N : ℕ) (hN : 0 < N) (n : ℕ) :
    sinIndexStream seed N n < N := by
  rw [sinIndexStream]
  have h0 := createSeededRandom_nonneg seed n
  have h1 := createSeededRandom_lt_one seed n
  have hfl : ⌊createSeededRandom seed n * (N : ℝ)⌋ < (N : ℤ) := by
    rw [Int.floor_lt]
    push_cast
    have hNpos : (0 : ℝ) < N := by exact_mod_cast hN
    calc createSeededRandom seed n * (N : ℝ) < 1 * N := by
          exact mul_lt_mul_of_pos_right h1 hNpos
      _ = N := one_mul _
  omega

/-! ## Lemmas about the redraw loop and slot selection -/

theorem drawFresh_spec (g : ℕ → ℕ) (used : List ℕ) :
    ∀ fuel pos idx pos', drawFresh g used pos fuel = some (idx, pos') →
      idx ∉ used ∧ ∃ p, idx = g p := by
  intro fuel
  induction fuel with
  | zero => intro pos idx pos' h; simp [drawFresh] at h
  | succ fuel ih =>
      intro pos idx pos' h
      rw [show drawFresh g used pos (fuel + 1) =
            (if g pos ∈ used then drawFresh g used (pos + 1) fuel
             else some (g pos, pos + 1)) from rfl] at h
      by_cases hmem : g pos ∈ used
      · rw [if_pos hmem] at h
        exact ih (pos + 1) idx pos' h
      · rw [if_neg hmem] at h
        injection h with h'
        injection h' with h1 h2
        subst h1
        exact ⟨hmem, pos, rfl⟩

theorem selectIndices_spec (g : ℕ → ℕ) (fuel : ℕ) :
    ∀ k used pos l, selectIndices g fuel k used pos = some l →
      l.length = k ∧ l.Nodup ∧ (∀ i ∈ l, i ∉ used) ∧ (∀ i ∈ l, ∃ p, i = g p) := by
  intro k
  induction k with
  | zero =>
      intro used pos l h
      rw [show selectIndices g fuel 0 used pos = some [] from rfl] at h
      injection h with h
      subst h
      simp
  | succ k ih =>
      intro used pos l h
      rw [show selectIndices g fuel (k + 1) used pos =
            (match drawFresh g used pos fuel with
             | none => none
             | some (pixelIndex, pos') =>
                 match selectIndices g fuel k (pixelIndex :: used) pos' with
                 | none => none
                 | some rest => some (pixelIndex :: rest)) from rfl] at h
      rcases hdf : drawFresh g used pos fuel with _ | ⟨idx, pos'⟩
      · rw [hdf] at h; exact absurd h (by simp)
      · rw [hdf] at h
        dsimp only at h
        rcases hsel : selectIndices g fuel k (idx :: used) pos' with _ | rest
        · rw [hsel] at h; exact absurd h (by simp)
        · rw [hsel] at h
          dsimp only at h
          injection h with h
          subst h
          obtain ⟨hlen, hnd, hused, himg⟩ := ih (idx :: used) pos' rest hsel
          obtain ⟨hidx_used, hidx_img⟩ := drawFresh_spec g used fuel pos idx pos' hdf
          refine ⟨by simp [hlen], ?_, ?_, ?_⟩
          · rw [List.nodup_cons]
            exact ⟨fun hmem => (hused idx hmem) (List.mem_cons_self idx used), hnd⟩
          · intro i hi
            rcases List.mem_cons.mp hi with rfl | hi'
            · exact hidx_used
            · exact fun hc => (hused i hi') (List.mem_cons_of_mem idx hc)
          · intro i hi
            rcases List.mem_cons.mp hi with rfl | hi'
            · exact hidx_img
            · exact himg i hi'

/-! ## Staging the embedding and extraction loops -/

theorem zipWrites_nil_left (d : List ℕ) (bits : List Bool) :
    zipWrites d [] bits = d := rfl

theorem zipWrites_nil_right (d : List ℕ) (l : List ℕ) :
    zipWrites d l [] = d := by
  cases l <;> rfl

theorem zipWrites_cons (d : List ℕ) (i : ℕ) (l : List ℕ) (b : Bool) (bits : List Bool) :
    zipWrites d (i :: l) (b :: bits) = zipWrites (setLSB d (i * 4 + 2) b) l bits := by
  simp [zipWrites]

theorem length_zipWrites (l : List ℕ) :
    ∀ (d : List ℕ) (bits : List Bool), (zipWrites d l bits).length = d.length := by
  induction l with
  | nil => intro d bits; rfl
  | cons i l ih =>
      intro d bits
      cases bits with
      | nil => rw [zipWrites_nil_right]
      | cons b bs => rw [zipWrites_cons, ih, length_setLSB]

theorem getD_zipWrites_not_mem (l : List ℕ) :
    ∀ (d : List ℕ) (bits : List Bool) (p : ℕ), (∀ i ∈ l, i * 4 + 2 ≠ p) →
      (zipWrites d l bits).getD p 0 = d.getD p 0 := by
  induction l with
  | nil => intro d bits p _; rfl
  | cons i l ih =>
      intro d bits p hp
      cases bits with
      | nil => rw [zipWrites_nil_right]
      | cons b bs =>
          rw [zipWrites_cons, ih _ _ _ (fun j hj => hp j (List.mem_cons_of_mem i hj)),
            getD_setLSB_ne _ _ _ _ (hp i (List.mem_cons_self i l))]

theorem getD_zipWrites_div (l : List ℕ) :
    ∀ (d : List ℕ) (bits : List Bool) (p : ℕ),
      (zipWrites d l bits).getD p 0 / 2 = d.getD p 0 / 2 := by
  induction l with
  | nil => intro d bits p; rfl
  | cons i l ih =>
      intro d bits p
      cases bits with
      | nil => rw [zipWrites_nil_right]
      | cons b bs => rw [zipWrites_cons, ih, getD_setLSB_div]

theorem map_lsb_zipWrites (l : List ℕ) :
    ∀ (d : List ℕ) (bits : List Bool), l.Nodup → l.length = bits.length →
      (∀ i ∈ l, i * 4 + 2 < d.length) →
      l.map (fun i => lsb (zipWrites d l bits) (i * 4 + 2)) = bits := by
  induction l with
  | nil =>
      intro d bits _ hlen _
      have hb : bits = [] := by
        cases bits
        · rfl
        · simp at hlen
      subst hb
      rfl
  | cons i l ih =>
      intro d bits hnd hlen hin
      cases bits with
      | nil => simp at hlen
      | cons b bs =>
          rw [zipWrites_cons, List.map_cons]
          have hnotmem : i ∉ l := (List.nodup_cons.mp hnd).1
          have hhead : lsb (zipWrites (setLSB d (i * 4 + 2) b) l bs) (i * 4 + 2) = b := by
            rw [lsb, getD_zipWrites_not_mem l _ bs (i * 4 + 2)
                (fun j hj => by
                  have : j ≠ i := fun hji => hnotmem (hji ▸ hj)
                  omega),
              ← lsb]
            exact lsb_setLSB_self d (i * 4 + 2) b (hin i (List.mem_cons_self i l))
          rw [hhead]
          congr 1
          exact ih (setLSB d (i * 4 + 2) b) bs (List.nodup_cons.mp hnd).2
            (by simpa using hlen)
            (fun j hj => by rw [length_setLSB]; exact hin j (List.mem_cons_of_mem i hj))

theorem embedBits_eq_selectIndices (g : ℕ → ℕ) (fuel : ℕ) :
    ∀ (bits : List Bool) (st : EmbedState),
      Option.map EmbedState.data (embedBits g fuel bits st) =
        Option.map (fun l => zipWrites st.data l bits)
          (selectIndices g fuel bits.length st.modifiedPixels st.pos) := by
  intro bits
  induction bits with
  | nil =>
      intro st
      rw [show embedBits g fuel [] st = some st from rfl,
        show selectIndices g fuel ([] : List Bool).length st.modifiedPixels st.pos =
          some [] from rfl]
      rfl
  | cons b bs ih =>
      intro st
      rw [show embedBits g fuel (b :: bs) st =
            (match drawFresh g st.modifiedPixels st.pos fuel with
             | none => none
             | some (pixelIndex, pos') =>
                 embedBits g fuel bs
                   ⟨setLSB st.data (pixelIndex * 4 + 2) b,
                    pixelIndex :: st.modifiedPixels, pos'⟩) from rfl,
        show selectIndices g fuel (b :: bs).length st.modifiedPixels st.pos =
            (match drawFresh g st.modifiedPixels st.pos fuel with
             | none => none
             | some (pixelIndex, pos') =>
                 match selectIndices g fuel bs.length (pixelIndex :: st.modifiedPixels) pos' with
                 | none => none
                 | some rest => some (pixelIndex :: rest)) from rfl]
      rcases hdf : drawFresh g st.modifiedPixels st.pos fuel with _ | ⟨idx, pos'⟩
      · rfl
      · dsimp only
        have h := ih ⟨setLSB st.data (idx * 4 + 2) b, idx :: st.modifiedPixels, pos'⟩
        dsimp only at h
        rcases hsel : selectIndices g fuel bs.length (idx :: st.modifiedPixels) pos'
          with _ | rest
        · rw [hsel] at h
          rw [h]
          rfl
        · rw [hsel] at h
          rw [h]
          show some (zipWrites (setLSB st.data (idx * 4 + 2) b) rest bs) =
            some (zipWrites st.data (idx :: rest) (b :: bs))
          rw [zipWrites_cons]

theorem extractBits_eq_selectIndices (g : ℕ → ℕ) (fuel : ℕ) (data : List ℕ) :
    ∀ (k : ℕ) (used : List ℕ) (pos : ℕ),
      extractBits g fuel data k used pos =
        Option.map (fun l => l.map (fun i => lsb data (i * 4 + 2)))
          (selectIndices g fuel k used pos) := by
  intro k
  induction k with
  | zero => intro used pos; rfl
  | succ k ih =>
      intro used pos
      rw [show extractBits g fuel data (k + 1) used pos =
            (match drawFresh g used pos fuel with
             | none => none
             | some (pixelIndex, pos') =>
                 match extractBits g fuel data k (pixelIndex :: used) pos' with
                 | none => none
                 | some rest => some (lsb data (pixelIndex * 4 + 2) :: rest)) from rfl,
        show selectIndices g fuel (k + 1) used pos =
            (match drawFresh g used pos fuel with
             | none => none
             | some (pixelIndex, pos') =>
                 match selectIndices g fuel k (pixelIndex :: used) pos' with
                 | none => none
                 | some rest => some (pixelIndex :: rest)) from rfl]
      rcases hdf : drawFresh g used pos fuel with _ | ⟨idx, pos'⟩
      · rfl
      · dsimp only
        rw [ih (idx :: used) pos']
        rcases hsel : selectIndices g fuel k (idx :: used) pos' with _ | rest
        · rfl
        · rfl

theorem applyInvisibleWatermark_eq (g : ℕ → ℕ) (fuel : ℕ) (img : ImageData)
    (msg : List ℕ) :
    applyInvisibleWatermark g fuel img msg =
      Option.map
        (fun l => (⟨img.width, img.height,
          writeSignature (img.width * img.height)
            (zipWrites img.data l (stringToBinary msg))⟩ : ImageData))
        (selectIndices g fuel (stringToBinary msg).length [] 0) := by
  rw [show applyInvisibleWatermark g fuel img msg =
        (match embedBits g fuel (stringToBinary msg) ⟨img.data, [], 0⟩ with
         | none => none
         | some st =>
             some ⟨img.width, img.height,
                   writeSignature (img.width * img.height) st.data⟩) from rfl]
  have h := embedBits_eq_selectIndices g fuel (stringToBinary msg) ⟨img.data, [], 0⟩
  dsimp only at h
  rcases he : embedBits g fuel (stringToBinary msg) ⟨img.data, [], 0⟩ with _ | st
  · rw [he] at h
    rcases hs : selectIndices g fuel (stringToBinary msg).length [] 0 with _ | l
    · rfl
    · rw [hs] at h
      simp at h
  · rw [he] at h
    rcases hs : selectIndices g fuel (stringToBinary msg).length [] 0 with _ | l
    · rw [hs] at h
      simp at h
    · rw [hs] at h
      simp only [Option.map_some'] at h
      injection h with h
      dsimp only
      rw [h]
      rfl

/-! ## Lemmas about the signature loops -/

theorem signatureBits_length : signatureBits.length = 72 := by decide

theorem min_signatureBits : min signatureBits.length 64 = 64 := by decide

theorem writeSignatureAux_succ (N k : ℕ) (d : List ℕ) :
    writeSignatureAux N (k + 1) d =
      setLSBZ (writeSignatureAux N k d) (((k : ℤ) + N - 64) * 4 + 3)
        (signatureBits.getD k false) := by
  rw [writeSignatureAux, writeSignatureAux, List.range_succ, List.foldl_append]
  rfl

theorem length_writeSignatureAux (N : ℕ) (d : List ℕ) :
    ∀ k, (writeSignatureAux N k d).length = d.length := by
  intro k
  induction k with
  | zero => rfl
  | succ k ih => rw [writeSignatureAux_succ, length_setLSBZ, ih]

theorem getD_writeSignatureAux_untouched (N : ℕ) (d : List ℕ) :
    ∀ (k : ℕ) (j : ℕ), (∀ i : ℕ, i < k → ((i : ℤ) + N - 64) * 4 + 3 ≠ (j : ℤ)) →
      (writeSignatureAux N k d).getD j 0 = d.getD j 0 := by
  intro k
  induction k with
  | zero => intro j _; rfl
  | succ k ih =>
      intro j hj
      rw [writeSignatureAux_succ,
        getD_setLSBZ_ne _ _ _ _ (hj k (by omega)),
        ih j (fun i hi => hj i (by omega))]

theorem getD_writeSignatureAux_div (N : ℕ) (d : List ℕ) :
    ∀ k (j : ℕ), (writeSignatureAux N k d).getD j 0 / 2 = d.getD j 0 / 2 := by
  intro k
  induction k with
  | zero => intro j; rfl
  | succ k ih => intro j; rw [writeSignatureAux_succ, getD_setLSBZ_div, ih]

theorem lsb_writeSignatureAux (N : ℕ) (d : List ℕ) (h64 : 64 ≤ N)
    (hlen : 4 * N ≤ d.length) :
    ∀ k, k ≤ 64 → ∀ i, i < k →
      lsb (writeSignatureAux N k d) ((N - 64 + i) * 4 + 3) = signatureBits.getD i false := by
  intro k
  induction k with
  | zero => intro _ i hi; omega
  | succ k ih =>
      intro hk i hi
      rw [writeSignatureAux_succ]
      have hz : ((k : ℤ) + N - 64) * 4 + 3 = (((N - 64 + k) * 4 + 3 : ℕ) : ℤ) := by
        push_cast
        omega
      by_cases hik : i = k
      · subst hik
        rw [hz, setLSBZ, if_pos (by omega)]
        have htn : ((((N - 64 + i) * 4 + 3 : ℕ) : ℤ)).toNat = (N - 64 + i) * 4 + 3 := by
          omega
        rw [htn]
        apply lsb_setLSB_self
        rw [length_writeSignatureAux]
        have : N - 64 + i < N := by omega
        omega
      · have hne : ((k : ℤ) + N - 64) * 4 + 3 ≠ (((N - 64 + i) * 4 + 3 : ℕ) : ℤ) := by
          push_cast
          omega
        rw [lsb, getD_setLSBZ_ne _ _ _ _ hne, ← lsb]
        exact ih (by omega) i (by omega)

theorem lsb_writeSignature (N : ℕ) (d : List ℕ) (h64 : 64 ≤ N)
    (hlen : 4 * N ≤ d.length) :
    ∀ i, i < 64 →
      lsb (writeSignature N d) ((N - 64 + i) * 4 + 3) = signatureBits.getD i false := by
  intro i hi
  rw [writeSignature, min_signatureBits]
  exact lsb_writeSignatureAux N d h64 hlen 64 le_rfl i hi

theorem length_writeSignature (N : ℕ) (d : List ℕ) :
    (writeSignature N d).length = d.length := by
  rw [writeSignature]
  exact length_writeSignatureAux N d _

theorem getD_writeSignature_not_mem_access (N : ℕ) (d : List ℕ) (j : ℕ)
    (hj : (j : ℤ) ∉ signatureAccessIndices N) :
    (writeSignature N d).getD j 0 = d.getD j 0 := by
  rw [writeSignature]
  apply getD_writeSignatureAux_untouched
  intro i hi hcontra
  apply hj
  rw [signatureAccessIndices]
  simp only [List.mem_map, List.mem_range]
  exact ⟨i, hi, hcontra⟩

theorem getD_writeSignature_untouched (N : ℕ) (d : List ℕ) (j : ℕ)
    (hj : j % 4 ≠ 3 ∨ (j % 4 = 3 ∧ (j / 4 + 64 < N ∨ N ≤ j / 4))) :
    (writeSignature N d).getD j 0 = d.getD j 0 := by
  rw [writeSignature]
  apply getD_writeSignatureAux_untouched
  intro i _ hcontra
  rcases hj with hj | ⟨_, hj⟩ <;> omega

theorem signatureMatches_iff (N : ℕ) (d : List ℕ) :
    signatureMatches N d = true ↔
      ∀ i : ℕ, i < 64 →
        lsbZ d (((i : ℤ) + N - 64) * 4 + 3) = signatureBits.getD i false := by
  rw [signatureMatches, min_signatureBits, List.all_eq_true]
  constructor
  · intro h i hi
    have := h i (List.mem_range.mpr hi)
    exact beq_iff_eq.mp this
  · intro h i hi
    exact beq_iff_eq.mpr (h i (List.mem_range.mp hi))

theorem signatureMatches_writeSignature (N : ℕ) (d : List ℕ) (h64 : 64 ≤ N)
    (hlen : 4 * N ≤ d.length) :
    signatureMatches N (writeSignature N d) = true := by
  rw [signatureMatches_iff]
  intro i hi
  have hz : ((i : ℤ) + N - 64) * 4 + 3 = (((N - 64 + i) * 4 + 3 : ℕ) : ℤ) := by
    push_cast
    omega
  rw [hz, lsbZ, if_pos (by omega),
    show ((((N - 64 + i) * 4 + 3 : ℕ) : ℤ)).toNat = (N - 64 + i) * 4 + 3 by omega]
  exact lsb_writeSignature N d h64 hlen i hi

/-! ## The claims about embedding and extraction -/

/-- C1: round-trip.  For any pixel buffer, any text `T` of single-byte
character codes and any index stream drawn from `[0, totalPixels)` (as the
seeded generator produces for every seed), if the embedding loop completes
and `len(stringToBinary T) < totalPixels - 64`, then extraction with the
same stream and the same expected message returns exactly `T`. -/
theorem extractWatermark_applyInvisibleWatermark (g : ℕ → ℕ) (fuel : ℕ)
    (img : ImageData) (T : List ℕ) (wm : ImageData)
    (hg : ∀ n, g n < img.width * img.height)
    (hlen : img.data.length = 4 * (img.width * img.height))
    (hcap : (stringToBinary T).length < img.width * img.height - 64)
    (hT : ∀ c ∈ T, c ≤ 255)
    (hemb : applyInvisibleWatermark g fuel img T = some wm) :
    extractWatermark g fuel wm T = some (some T) := by
  have h64 : 64 ≤ img.width * img.height := by omega
  rw [applyInvisibleWatermark_eq] at hemb
  rcases hsel : selectIndices g fuel (stringToBinary T).length [] 0 with _ | l
  · rw [hsel] at hemb
    exact absurd hemb (by simp)
  · rw [hsel] at hemb
    simp only [Option.map_some'] at hemb
    injection hemb with hemb
    obtain ⟨hlength, hnodup, _, himg⟩ :=
      selectIndices_spec g fuel (stringToBinary T).length [] 0 l hsel
    have hbound : ∀ i ∈ l, i < img.width * img.height := by
      intro i hi
      obtain ⟨p, hp⟩ := himg i hi
      rw [hp]
      exact hg p
    subst hemb
    have hlenD : 4 * (img.width * img.height) ≤
        (zipWrites img.data l (stringToBinary T)).length := by
      rw [length_zipWrites, hlen]
    have hsig : signatureMatches (img.width * img.height)
        (writeSignature (img.width * img.height)
          (zipWrites img.data l (stringToBinary T))) = true :=
      signatureMatches_writeSignature _ _ h64 hlenD
    rw [show extractWatermark g fuel
          ⟨img.width, img.height,
           writeSignature (img.width * img.height)
             (zipWrites img.data l (stringToBinary T))⟩ T =
        (if signatureMatches (img.width * img.height)
              (writeSignature (img.width * img.height)
                (zipWrites img.data l (stringToBinary T))) then
           Option.map (fun bits => some (binaryToString bits))
             (extractBits g fuel
               (writeSignature (img.width * img.height)
                 (zipWrites img.data l (stringToBinary T)))
               (stringToBinary T).length [] 0)
         else some none) from rfl,
      if_pos hsig, extractBits_eq_selectIndices, hsel]
    simp only [Option.map_some']
    have hreads : l.map (fun i =>
        lsb (writeSignature (img.width * img.height)
          (zipWrites img.data l (stringToBinary T))) (i * 4 + 2)) =
        l.map (fun i => lsb (zipWrites img.data l (stringToBinary T)) (i * 4 + 2)) := by
      apply List.map_congr_left
      intro i _
      rw [lsb, getD_writeSignature_untouched _ _ _ (Or.inl (by omega)), ← lsb]
    rw [hreads,
      map_lsb_zipWrites l img.data (stringToBinary T) hnodup hlength
        (fun i hi => by
          have := hbound i hi
          omega),
      binaryToString_stringToBinary T hT]

set_option maxRecDepth 100000 in
/-- Witness for C1 at a concrete 65×1 buffer, the empty text and a
constant stream. -/
theorem extractWatermark_applyInvisibleWatermark_witness :
    extractWatermark (fun _ => 0) 1
      ((applyInvisibleWatermark (fun _ => 0) 1 ⟨65, 1, List.replicate 260 0⟩ []).getD
        ⟨65, 1, List.replicate 260 0⟩) [] = some (some []) := by
  refine extractWatermark_applyInvisibleWatermark (fun _ => 0) 1
    ⟨65, 1, List.replicate 260 0⟩ []
    ((applyInvisibleWatermark (fun _ => 0) 1 ⟨65, 1, List.replicate 260 0⟩ []).getD
      ⟨65, 1, List.replicate 260 0⟩) ?_ ?_ ?_ ?_ ?_
  · intro n
    show (0 : ℕ) < 65 * 1
    decide
  · decide
  · decide
  · simp
  · rfl

/-- C2: the signature region is fixed.  After any successful embedding into
a buffer of `N ≥ 64` pixels, the alpha-channel LSB of pixel `N - 64 + i`
equals bit `i` of `stringToBinary "WATERMARK"` for every `i < 64`,
whatever the index stream (i.e. the random seed) was; consequently two
embeddings of the same message under two different seeds produce identical
alpha LSBs on the last 64 pixels. -/
theorem signature_region_independent_of_seed
    (img : ImageData) (msg : List ℕ) (g1 g2 : ℕ → ℕ) (fuel1 fuel2 : ℕ)
    (wm1 wm2 : ImageData)
    (h64 : 64 ≤ img.width * img.height)
    (hlen : img.data.length = 4 * (img.width * img.height))
    (he1 : applyInvisibleWatermark g1 fuel1 img msg = some wm1)
    (he2 : applyInvisibleWatermark g2 fuel2 img msg = some wm2) :
    (∀ i, i < 64 →
      lsb wm1.data ((img.width * img.height - 64 + i) * 4 + 3) =
        signatureBits.getD i false) ∧
    (∀ i, i < 64 →
      lsb wm1.data ((img.width * img.height - 64 + i) * 4 + 3) =
      lsb wm2.data ((img.width * img.height - 64 + i) * 4 + 3)) := by
  have key : ∀ (g : ℕ → ℕ) (fuel : ℕ) (wm : ImageData),
      applyInvisibleWatermark g fuel img msg = some wm →
      ∀ i, i < 64 →
        lsb wm.data ((img.width * img.height - 64 + i) * 4 + 3) =
          signatureBits.getD i false := by
    intro g fuel wm hemb i hi
    rw [applyInvisibleWatermark_eq] at hemb
    rcases hsel : selectIndices g fuel (stringToBinary msg).length [] 0 with _ | l
    · rw [hsel] at hemb
      exact absurd hemb (by simp)
    · rw [hsel] at hemb
      simp only [Option.map_some'] at hemb
      injection hemb with hemb
      subst hemb
      exact lsb_writeSignature _ _ h64 (by rw [length_zipWrites, hlen]) i hi
  exact ⟨key g1 fuel1 wm1 he1, fun i hi => by
    rw [key g1 fuel1 wm1 he1 i hi, key g2 fuel2 wm2 he2 i hi]⟩

set_option maxRecDepth 100000 in
/-- Witness for C2 at a concrete 8×8 buffer and the empty message. -/
theorem signature_region_independent_of_seed_witness :
    lsb ((applyInvisibleWatermark (fun _ => 0) 1 ⟨8, 8, List.replicate 256 0⟩ []).getD
      ⟨8, 8, List.replicate 256 0⟩).data ((8 * 8 - 64 + 0) * 4 + 3) =
      signatureBits.getD 0 false :=
  (signature_region_independent_of_seed ⟨8, 8, List.replicate 256 0⟩ []
    (fun _ => 0) (fun _ => 0) 1 1
    ((applyInvisibleWatermark (fun _ => 0) 1 ⟨8, 8, List.replicate 256 0⟩ []).getD
      ⟨8, 8, List.replicate 256 0⟩)
    ((applyInvisibleWatermark (fun _ => 0) 1 ⟨8, 8, List.replicate 256 0⟩ []).getD
      ⟨8, 8, List.replicate 256 0⟩)
    (by decide) (by decide) rfl rfl).1 0 (by decide)

/-- C3: `extractWatermark` returns `null` exactly when one of the 64
alpha-channel LSBs of the last 64 pixels disagrees with the corresponding
signature bit; when all 64 agree it returns a decoded string (never an
error), whatever the length of `config.message` — the expected message
only determines how many bits are read.  The hypothesis `hsel` says the
redraw loops of the extraction pass terminate. -/
theorem extractWatermark_null_iff
    (g : ℕ → ℕ) (fuel : ℕ) (img : ImageData) (msg : List ℕ) (l : List ℕ)
    (hsel : selectIndices g fuel (stringToBinary msg).length [] 0 = some l) :
    (extractWatermark g fuel img msg = some none ↔
      ¬ ∀ i : ℕ, i < 64 →
        lsbZ img.data (((i : ℤ) + img.width * img.height - 64) * 4 + 3) =
          signatureBits.getD i false) ∧
    ((∀ i : ℕ, i < 64 →
        lsbZ img.data (((i : ℤ) + img.width * img.height - 64) * 4 + 3) =
          signatureBits.getD i false) →
      extractWatermark g fuel img msg =
        some (some (binaryToString (l.map (fun i => lsb img.data (i * 4 + 2)))))) := by
  have hunfold : extractWatermark g fuel img msg =
      (if signatureMatches (img.width * img.height) img.data then
         Option.map (fun bits => some (binaryToString bits))
           (extractBits g fuel img.data (stringToBinary msg).length [] 0)
       else some none) := rfl
  by_cases hs : signatureMatches (img.width * img.height) img.data = true
  · have hsem := (signatureMatches_iff _ _).mp hs
    constructor
    · rw [hunfold, if_pos hs, extractBits_eq_selectIndices, hsel]
      simp only [Option.map_some']
      constructor
      · intro hcontra
        exact absurd hcontra (by simp)
      · intro hcontra
        exact absurd hsem hcontra
    · intro _
      rw [hunfold, if_pos hs, extractBits_eq_selectIndices, hsel]
      rfl
  · have hsem : ¬ ∀ i : ℕ, i < 64 →
        lsbZ img.data (((i : ℤ) + img.width * img.height - 64) * 4 + 3) =
          signatureBits.getD i false :=
      fun hsem => hs ((signatureMatches_iff _ _).mpr hsem)
    constructor
    · rw [hunfold, if_neg hs]
      exact ⟨fun _ => hsem, fun _ => rfl⟩
    · intro hforall
      exact absurd hforall hsem

/-- Witness for C3 at a concrete 8×8 buffer and the empty expected
message. -/
theorem extractWatermark_null_iff_witness :
    extractWatermark (fun _ => 0) 1 ⟨8, 8, List.replicate 256 0⟩ [] = some none ↔
      ¬ ∀ i : ℕ, i < 64 →
        lsbZ (List.replicate 256 0) (((i : ℤ) + 8 * 8 - 64) * 4 + 3) =
          signatureBits.getD i false :=
  (extractWatermark_null_iff (fun _ => 0) 1 ⟨8, 8, List.replicate 256 0⟩ [] [] rfl).1

/-- C7: partial correctness of the slot selection: whenever the redraw
loops deliver `k` indices (for any stream bounded by `totalPixels`, as the
seeded generator guarantees, and any `k < totalPixels`), those indices are
pairwise distinct and all lie in `[0, totalPixels)`. -/
theorem selectIndices_distinct_in_range
    (g : ℕ → ℕ) (fuel N k : ℕ) (l : List ℕ)
    (hg : ∀ n, g n < N) (hk : k < N)
    (hsel : selectIndices g fuel k [] 0 = some l) :
    l.length = k ∧ l.Nodup ∧ ∀ i ∈ l, i < N := by
  obtain ⟨hlen, hnd, _, himg⟩ := selectIndices_spec g fuel k [] 0 l hsel
  refine ⟨hlen, hnd, fun i hi => ?_⟩
  obtain ⟨p, hp⟩ := himg i hi
  rw [hp]
  exact hg p

/-- Witness for C7: three draws out of four pixels with the stream
`n % 4`. -/
theorem selectIndices_distinct_in_range_witness :
    ([0, 1, 2] : List ℕ).length = 3 ∧ ([0, 1, 2] : List ℕ).Nodup ∧
      ∀ i ∈ ([0, 1, 2] : List ℕ), i < 4 :=
  selectIndices_distinct_in_range (fun n => n % 4) 4 4 3 [0, 1, 2]
    (fun n => Nat.mod_lt n (by decide)) (by decide) (by decide)

theorem getD_writeSignature_div (N : ℕ) (d : List ℕ) (j : ℕ) :
    (writeSignature N d).getD j 0 / 2 = d.getD j 0 / 2 := by
  rw [writeSignature]
  exact getD_writeSignatureAux_div N d _ j

/-- C6 counterexample: with the 8×8 all-ones buffer, the one-byte message
`[0]` and the stream `n % 64`, pixel 0 is drawn for a message bit (the
drawn indices are 0..7), yet its alpha byte changes from 1 to 0 when the
signature loop reaches it (with 64 pixels, the last 64 pixels are all of
them) — so the alpha channel of a message-bearing pixel is not left
untouched. -/
theorem alpha_of_message_pixel_changes :
    (selectIndices (fun n => n % 64) 8 (stringToBinary [0]).length [] 0 =
      some [0, 1, 2, 3, 4, 5, 6, 7]) ∧
    Option.map (fun w => w.data.getD (0 * 4 + 3) 0)
      (applyInvisibleWatermark (fun n => n % 64) 8 ⟨8, 8, List.replicate 256 1⟩ [0]) =
      some 0 ∧
    (List.replicate 256 (1 : ℕ)).getD (0 * 4 + 3) 0 = 1 :=
  ⟨by decide, by decide, by decide⟩

/-- Frame property of the embedding, shared by the claims below. -/
theorem applyInvisibleWatermark_frame_core
    (g : ℕ → ℕ) (fuel : ℕ) (img : ImageData) (msg : List ℕ) (wm : ImageData)
    (l : List ℕ)
    (hsel : selectIndices g fuel (stringToBinary msg).length [] 0 = some l)
    (hemb : applyInvisibleWatermark g fuel img msg = some wm) :
    wm.width = img.width ∧ wm.height = img.height ∧
    wm.data.length = img.data.length ∧
    (∀ j : ℕ, wm.data.getD j 0 / 2 = img.data.getD j 0 / 2) ∧
    (∀ j : ℕ, j % 4 = 0 ∨ j % 4 = 1 → wm.data.getD j 0 = img.data.getD j 0) ∧
    (∀ j : ℕ, j % 4 = 2 → j / 4 ∉ l → wm.data.getD j 0 = img.data.getD j 0) ∧
    (∀ j : ℕ, j % 4 = 3 →
      j / 4 + 64 < img.width * img.height ∨ img.width * img.height ≤ j / 4 →
      wm.data.getD j 0 = img.data.getD j 0) := by
  rw [applyInvisibleWatermark_eq, hsel] at hemb
  simp only [Option.map_some'] at hemb
  injection hemb with hemb
  subst hemb
  refine ⟨rfl, rfl, ?_, ?_, ?_, ?_, ?_⟩
  · show (writeSignature (img.width * img.height)
      (zipWrites img.data l (stringToBinary msg))).length = img.data.length
    rw [length_writeSignature, length_zipWrites]
  · intro j
    show (writeSignature (img.width * img.height)
        (zipWrites img.data l (stringToBinary msg))).getD j 0 / 2 =
      img.data.getD j 0 / 2
    rw [getD_writeSignature_div, getD_zipWrites_div]
  · intro j hj
    show (writeSignature (img.width * img.height)
        (zipWrites img.data l (stringToBinary msg))).getD j 0 =
      img.data.getD j 0
    rw [getD_writeSignature_untouched _ _ _ (Or.inl (by omega)),
      getD_zipWrites_not_mem _ _ _ _ (fun i _ => by omega)]
  · intro j hj2 hjnot
    show (writeSignature (img.width * img.height)
        (zipWrites img.data l (stringToBinary msg))).getD j 0 =
      img.data.getD j 0
    rw [getD_writeSignature_untouched _ _ _ (Or.inl (by omega)),
      getD_zipWrites_not_mem _ _ _ _ (fun i hi => by
        intro hcontra
        have : i = j / 4 := by omega
        exact hjnot (this ▸ hi))]
  · intro j hj3 hjout
    show (writeSignature (img.width * img.height)
        (zipWrites img.data l (stringToBinary msg))).getD j 0 =
      img.data.getD j 0
    rw [getD_writeSignature_untouched _ _ _ (Or.inr ⟨hj3, hjout⟩),
      getD_zipWrites_not_mem _ _ _ _ (fun i _ => by omega)]

/-- C6 (amended): frame property of the embedding.  In this model the input
buffer is a value (the source clones it, so the original is not mutated);
the returned buffer has the same dimensions and byte count, every byte
keeps its seven high bits, red and green channels are untouched
everywhere, the blue channel is untouched at every pixel that was not
drawn for a message bit, and the alpha channel is untouched at every pixel
outside the last 64.  (The claim's final remark — that the alpha channel
of every message-bearing pixel is untouched — fails when a drawn pixel
lies within the last 64 pixels, as the counterexample shows.) -/
theorem applyInvisibleWatermark_frame
    (g : ℕ → ℕ) (fuel : ℕ) (img : ImageData) (msg : List ℕ) (wm : ImageData)
    (l : List ℕ)
    (hsel : selectIndices g fuel (stringToBinary msg).length [] 0 = some l)
    (hemb : applyInvisibleWatermark g fuel img msg = some wm) :
    wm.width = img.width ∧ wm.height = img.height ∧
    wm.data.length = img.data.length ∧
    (∀ j : ℕ, wm.data.getD j 0 / 2 = img.data.getD j 0 / 2) ∧
    (∀ j : ℕ, j % 4 = 0 ∨ j % 4 = 1 → wm.data.getD j 0 = img.data.getD j 0) ∧
    (∀ j : ℕ, j % 4 = 2 → j / 4 ∉ l → wm.data.getD j 0 = img.data.getD j 0) ∧
    (∀ j : ℕ, j % 4 = 3 →
      j / 4 + 64 < img.width * img.height ∨ img.width * img.height ≤ j / 4 →
      wm.data.getD j 0 = img.data.getD j 0) :=
  applyInvisibleWatermark_frame_core g fuel img msg wm l hsel hemb

set_option maxRecDepth 100000 in
/-- Witness for the amended C6 at a concrete 8×8 buffer and empty
message. -/
theorem applyInvisibleWatermark_frame_witness :
    ((applyInvisibleWatermark (fun _ => 0) 1 ⟨8, 8, List.replicate 256 0⟩ []).getD
      ⟨8, 8, List.replicate 256 0⟩).width = 8 :=
  (applyInvisibleWatermark_frame (fun _ => 0) 1 ⟨8, 8, List.replicate 256 0⟩ []
    ((applyInvisibleWatermark (fun _ => 0) 1 ⟨8, 8, List.replicate 256 0⟩ []).getD
      ⟨8, 8, List.replicate 256 0⟩) [] rfl rfl).1

/-- C8 counterexample: when `randomSeed` is omitted, the codec generates a
seed internally from the `Math.random()` value of that very call —
`applyInvisibleWatermark`'s defaults use `Math.round(r * 1000 + 1)` and
`extractWatermark`'s use `Math.round(r * 10000 + 1)` — so two calls with
identical inputs can resolve different seeds: ambient value 0 gives seed 1
while ambient value 1/2 gives seed 501 (and 5001 on the extract side). -/
theorem default_seed_depends_on_ambient :
    (resolveEmbedConfig ⟨none, none, none⟩ 0).randomSeed = 1 ∧
    (resolveEmbedConfig ⟨none, none, none⟩ (1 / 2)).randomSeed = 501 ∧
    (resolveExtractConfig ⟨none, none, none⟩ (1 / 2)).randomSeed = 5001 ∧
    (resolveEmbedConfig ⟨none, none, none⟩ 0).randomSeed ≠
      (resolveEmbedConfig ⟨none, none, none⟩ (1 / 2)).randomSeed := by
  have h1 : (resolveEmbedConfig ⟨none, none, none⟩ 0).randomSeed = 1 := by
    simp [resolveEmbedConfig, jsRound]
    norm_num
  have h2 : (resolveEmbedConfig ⟨none, none, none⟩ (1 / 2)).randomSeed = 501 := by
    simp [resolveEmbedConfig, jsRound]
    norm_num
  have h3 : (resolveExtractConfig ⟨none, none, none⟩ (1 / 2)).randomSeed = 5001 := by
    simp [resolveExtractConfig, jsRound]
    norm_num
  refine ⟨h1, h2, h3, ?_⟩
  rw [h1, h2]
  decide

/-- C8 (amended): once `randomSeed` is supplied in the options, config
resolution is independent of the ambient `Math.random()` value and agrees
between embed and extract, so an embed/extract pair passing an explicit
seed is reproducible by construction; reproducibility fails only in the
omitted-seed case of the counterexample. -/
theorem resolveConfig_deterministic_of_seed
    (opts : WatermarkOptions) (s : ℤ) (a1 a2 : ℚ)
    (h : opts.randomSeed = some s) :
    resolveEmbedConfig opts a1 = resolveEmbedConfig opts a2 ∧
    resolveExtractConfig opts a1 = resolveExtractConfig opts a2 ∧
    (resolveEmbedConfig opts a1).randomSeed = s ∧
    (resolveExtractConfig opts a1).randomSeed = s := by
  simp [resolveEmbedConfig, resolveExtractConfig, h]

/-- Witness for the amended C8 with the explicit seed 42. -/
theorem resolveConfig_deterministic_of_seed_witness :
    resolveEmbedConfig ⟨none, none, some 42⟩ 0 =
      resolveEmbedConfig ⟨none, none, some 42⟩ 1 :=
  (resolveConfig_deterministic_of_seed ⟨none, none, some 42⟩ 42 0 1 rfl).1

set_option maxRecDepth 1000000 in
/-- C9 counterexample: 10×10 all-ones buffer, message `"{}"` (character
codes [123, 125]), a stream drawing pixels 0..15: the embedding succeeds
and changes the alpha byte of pixel 46 — outside the claimed range 36–44 —
from 1 to 0, because the signature loop writes 64 alpha-channel LSBs at
pixels 36–99, not 9 at pixels 36–44. -/
theorem signature_writes_outside_pixels_36_44 :
    Option.map (fun w => w.data.getD (46 * 4 + 3) 0)
      (applyInvisibleWatermark (fun n => n % 100) 16 ⟨10, 10, List.replicate 400 1⟩
        [123, 125]) = some 0 ∧
    (List.replicate 400 (1 : ℕ)).getD (46 * 4 + 3) 0 = 1 :=
  ⟨by decide, by decide⟩

/-- C9 (amended): for a 10×10 buffer and the 16-bit message `"{}"`, a
successful embedding writes the 16 message bits into the blue-channel LSBs
of 16 distinct pixel indices below 100 determined by the stream (i.e. by
the seed), and the signature loop writes all 64 signature bits into the
alpha-channel LSBs of pixels 36–99; red and green channels, blue channels
of undrawn pixels and alpha channels outside pixels 36–99 are
unchanged. -/
theorem embedding_10x10_curly_braces
    (g : ℕ → ℕ) (fuel : ℕ) (data : List ℕ) (wm : ImageData) (l : List ℕ)
    (hlen : data.length = 400)
    (hg : ∀ n, g n < 100)
    (hsel : selectIndices g fuel (stringToBinary [123, 125]).length [] 0 = some l)
    (hemb : applyInvisibleWatermark g fuel ⟨10, 10, data⟩ [123, 125] = some wm) :
    l.length = 16 ∧ l.Nodup ∧ (∀ i ∈ l, i < 100) ∧
    (l.map (fun i => lsb wm.data (i * 4 + 2)) = stringToBinary [123, 125]) ∧
    (∀ i, i < 64 → lsb wm.data ((36 + i) * 4 + 3) = signatureBits.getD i false) ∧
    (∀ j : ℕ, j % 4 = 3 → j / 4 < 36 ∨ 100 ≤ j / 4 →
      wm.data.getD j 0 = data.getD j 0) ∧
    (∀ j : ℕ, j % 4 = 2 → j / 4 ∉ l → wm.data.getD j 0 = data.getD j 0) ∧
    (∀ j : ℕ, j % 4 = 0 ∨ j % 4 = 1 → wm.data.getD j 0 = data.getD j 0) := by
  obtain ⟨hlength, hnodup, _, himg⟩ :=
    selectIndices_spec g fuel (stringToBinary [123, 125]).length [] 0 l hsel
  have hbound : ∀ i ∈ l, i < 100 := by
    intro i hi
    obtain ⟨p, hp⟩ := himg i hi
    rw [hp]
    exact hg p
  have hframe := applyInvisibleWatermark_frame_core g fuel ⟨10, 10, data⟩ [123, 125] wm l
    hsel hemb
  rw [applyInvisibleWatermark_eq, hsel] at hemb
  simp only [Option.map_some'] at hemb
  injection hemb with hemb
  have hdata : wm.data =
      writeSignature 100 (zipWrites data l (stringToBinary [123, 125])) := by
    rw [← hemb]
  refine ⟨by rw [hlength]; decide, hnodup, hbound, ?_, ?_, ?_, ?_, ?_⟩
  · rw [hdata]
    have hreads : l.map (fun i =>
        lsb (writeSignature 100 (zipWrites data l (stringToBinary [123, 125])))
          (i * 4 + 2)) =
        l.map (fun i => lsb (zipWrites data l (stringToBinary [123, 125])) (i * 4 + 2)) := by
      apply List.map_congr_left
      intro i _
      rw [lsb, getD_writeSignature_untouched _ _ _ (Or.inl (by omega)), ← lsb]
    rw [hreads]
    exact map_lsb_zipWrites l data (stringToBinary [123, 125]) hnodup hlength
      (fun i hi => by
        have := hbound i hi
        omega)
  · intro i hi
    rw [hdata, show (36 + i) * 4 + 3 = (100 - 64 + i) * 4 + 3 by omega]
    exact lsb_writeSignature 100 _ (by omega)
      (by rw [length_zipWrites, hlen]) i hi
  · intro j hj3 hjout
    exact hframe.2.2.2.2.2.2 j hj3 (by
      show j / 4 + 64 < 10 * 10 ∨ 10 * 10 ≤ j / 4
      omega)
  · intro j hj2 hjnot
    exact hframe.2.2.2.2.2.1 j hj2 hjnot
  · intro j hj01
    exact hframe.2.2.2.2.1 j hj01

set_option maxRecDepth 1000000 in
/-- Witness for the amended C9: the all-ones 10×10 buffer with the stream
`n % 100`, which draws pixels 0..15. -/
theorem embedding_10x10_curly_braces_witness :
    ([0, 1, 2, 3, 4, 5, 6, 7, 8, 9, 10, 11, 12, 13, 14, 15] : List ℕ).length = 16 :=
  (embedding_10x10_curly_braces (fun n => n % 100) 16 (List.replicate 400 1)
    ((applyInvisibleWatermark (fun n => n % 100) 16 ⟨10, 10, List.replicate 400 1⟩
      [123, 125]).getD ⟨10, 10, List.replicate 400 1⟩)
    [0, 1, 2, 3, 4, 5, 6, 7, 8, 9, 10, 11, 12, 13, 14, 15]
    (by decide) (fun n => Nat.mod_lt n (by decide)) (by decide) rfl).1

/-- C10 counterexample: for a buffer of a single pixel the very first
signature index is `(0 + 1 - 64) * 4 + 3 = -249` — the signature loops do
compute negative data-array indices, so not every accessed index lies in
`[0, 4·totalPixels)`. -/
theorem signature_access_negative_on_small_buffer :
    (-249 : ℤ) ∈ signatureAccessIndices 1 ∧
      ¬ (0 ≤ (-249 : ℤ) ∧ (-249 : ℤ) < 4 * 1) :=
  ⟨by decide, by decide⟩

/-- C10 (amended): the in-range guarantee holds exactly for buffers of at
least 64 pixels: when `64 ≤ totalPixels` every data index accessed by the
signature write loop and the signature check loop lies in
`[0, 4·totalPixels)`.  For smaller buffers the loops compute negative
indices (see the counterexample); in the model — as on a JS typed array —
such writes are ignored and such reads yield bit 0, so no in-memory byte
outside the buffer is touched, but the indices themselves are negative
rather than handled as a graceful capacity failure. -/
theorem signatureAccessIndices_in_range (N : ℕ) (h64 : 64 ≤ N) :
    ∀ idx ∈ signatureAccessIndices N, 0 ≤ idx ∧ idx < 4 * N := by
  intro idx hidx
  rw [signatureAccessIndices] at hidx
  simp only [min_signatureBits, List.mem_map, List.mem_range] at hidx
  obtain ⟨i, hi, rfl⟩ := hidx
  constructor
  · omega
  · omega

/-- Witness for the amended C10: at 64 pixels the first accessed index is 3
and lies in range. -/
theorem signatureAccessIndices_in_range_witness :
    0 ≤ (3 : ℤ) ∧ (3 : ℤ) < 4 * 64 :=
  signatureAccessIndices_in_range 64 (by decide) 3 (by decide)
